import Mathlib

set_option maxRecDepth 100000

/-!
Verification of the counter-delta reconstruction engine of `git_hit_monitor`.

The development shallowly embeds `src/helpers/process_data_helper.py` and the
period arithmetic of `src/helpers/enum_helper.py` (`PlotGroupRange`).

Modelling conventions:
* pandas timestamps of the daily pipeline are epoch seconds (`ℤ`); the sample
  data of the repository has second resolution, and `Timestamp.floor('D')`
  floors the epoch value to a multiple of 86400;
* `float` values are modelled as exact rationals (`ℚ`); `np.finfo(float).eps`
  is the exact rational `2⁻⁵²`; `Series.round(2)` is rounding of the exact
  rational to two decimal places;
* the input frame is taken in the order in which it reaches the per-row loop.
  `convert_and_sort_timestamps` stably re-sorts the frame by timestamp, which
  is the identity exactly when the input is already time-sorted — the
  precondition stated by the spec and established by
  `read_and_preprocess_data`; theorems carry the sortedness hypothesis they
  need;
* the `IndexError` raised by `calculate_interval_durations` on an empty frame
  (`clicks_dataframe.index[0]` on an empty index) is modelled with `Except`.
-/

/-- `np.finfo(float).eps`, the machine epsilon of an IEEE-754 double, as an
exact rational. -/
def machineEps : ℚ := 1 / 2 ^ 52

/-- `Timestamp.floor('D')` on an epoch-second timestamp: floor to midnight,
that is to the largest multiple of 86400 seconds not exceeding `t`
(floor division, as pandas floors toward minus infinity). -/
def floorD (t : ℤ) : ℤ := 86400 * Int.fdiv t 86400

/-- One row of the ingested frame: `(timestamp, number)`. -/
structure Sample where
  ts : ℤ
  num : ℚ
deriving DecidableEq, Repr, Inhabited

/-- `interval_duration` of one row after `calculate_interval_durations`:
`(timestamp - prev_timestamp).dt.total_seconds()` with an exact zero replaced
by machine epsilon (`.replace(0, np.finfo(float).eps)`). -/
def intervalOf (prev ts : ℤ) : ℚ :=
  if ts - prev = 0 then machineEps else ((ts - prev : ℤ) : ℚ)

/-- One prepared row of the clicks frame: output of
`generate_clicks_dataframe` (the `count` column, `number.diff().fillna(1)`)
followed by `calculate_interval_durations` (the `prev_timestamp` column,
`timestamp.shift(1)` with the first entry set to its own timestamp, and the
`interval_duration` column). -/
structure PRow where
  ts : ℤ
  prev : ℤ
  count : ℚ
  interval : ℚ
deriving DecidableEq, Repr

/-- Row `i` of the prepared clicks frame.  `count` is
`df['number'].diff().fillna(1)` (the first row gets `1`, every other row the
difference with its predecessor); `prev` is `timestamp.shift(1)` with the
first row's previous timestamp set equal to its own timestamp. -/
def rowAt (df : List Sample) (i : ℕ) : PRow :=
  let t := (df.getD i ⟨0, 0⟩).ts
  let p := if i = 0 then t else (df.getD (i - 1) ⟨0, 0⟩).ts
  let c := if i = 0 then 1 else (df.getD i ⟨0, 0⟩).num - (df.getD (i - 1) ⟨0, 0⟩).num
  ⟨t, p, c, intervalOf p t⟩

/-- The prepared clicks frame (`generate_and_prepare_clicks_dataframe`
followed by `calculate_interval_durations`), row by row. -/
def prepRows (df : List Sample) : List PRow :=
  (List.range df.length).map (rowAt df)

/-- Number of grid points of
`pd.date_range(start=prev.floor('D'), end=ts.floor('D') + period_days, freq=period_days·'D')`:
points `floorD prev + k·step` with `k ≥ 0`, not exceeding the end bound
(empty when the end bound lies before the start). -/
def gridLen (d : ℕ) (prev ts : ℤ) : ℕ :=
  let step : ℤ := 86400 * (d : ℤ)
  let start := floorD prev
  let stop := floorD ts + step
  if stop < start then 0 else (Int.fdiv (stop - start) step).toNat + 1

/-- Iteration `k` of the loop of `process_multiple_periods`: the period
`[period_starts[k], period_starts[k+1])`, the overlap of the row's click
interval with it, and the proportionally allocated count
`row.count * overlap_duration / row.interval_duration`. -/
def allocAt (d : ℕ) (r : PRow) (k : ℕ) : ℤ × ℚ :=
  let step : ℤ := 86400 * (d : ℤ)
  let s := floorD r.prev + step * (k : ℤ)
  let e := floorD r.prev + step * ((k : ℤ) + 1)
  let overlap : ℤ := min r.ts e - max r.prev s
  (s, r.count * ((overlap : ℚ) / r.interval))

/-- The `(period_start, allocated_count)` dictionaries one row appends to
`period_counts`.  When the date range has a single point the code calls
`process_single_period`, which stores the count under the hard-coded column
`'clicks_per_period'`; `sameCol` records whether `column_name` equals that
hard-coded name — when it does not (as in `calculate_daily_clicks`), the
stored count lands in a different column and the later
`groupby('period_start')[column_name].sum()` reads it back as `NaN`, summed
as `0`. -/
def rowEntries (d : ℕ) (sameCol : Bool) (r : PRow) : List (ℤ × ℚ) :=
  let L := gridLen d r.prev r.ts
  if L = 1 then [(floorD r.prev, if sameCol then r.count else 0)]
  else (List.range (L - 1)).map (allocAt d r)

/-- All dictionaries accumulated in `period_counts` by the per-row loop of
`calculate_clicks`. -/
def allEntries (d : ℕ) (sameCol : Bool) (df : List Sample) : List (ℤ × ℚ) :=
  (prepRows df).flatMap (rowEntries d sameCol)

/-- `groupby('period_start')[column_name].sum()` for a single period key. -/
def keyTotal (l : List (ℤ × ℚ)) (s : ℤ) : ℚ :=
  (l.map (fun p => if p.1 = s then p.2 else 0)).sum

/-- `.round(2)`: round to two decimal places. -/
def round2 (x : ℚ) : ℚ := ((round (x * 100) : ℤ) : ℚ) / 100

/-- The distinct period keys in the ascending order produced by
`groupby('period_start')` (pandas sorts group keys). -/
def sortedKeys (l : List (ℤ × ℚ)) : List ℤ :=
  List.insertionSort (· ≤ ·) (l.map Prod.fst).dedup

/-- `calculate_clicks(df, period_days, column_name)`.  The `Except` error case
models the `IndexError` that `calculate_interval_durations` raises on an empty
frame (`clicks_dataframe.index[0]`).  Otherwise: prepare the rows, distribute
each row's count over the day grid spanning its click interval, group by
period start, sum and round to two decimals. -/
def calculate_clicks (d : ℕ) (sameCol : Bool) (df : List Sample) :
    Except String (List (ℤ × ℚ)) :=
  if df.isEmpty then Except.error "IndexError: index 0 is out of bounds"
  else
    let entries := allEntries d sameCol df
    Except.ok ((sortedKeys entries).map (fun s => (s, round2 (keyTotal entries s))))

/-- `calculate_daily_clicks(df) = calculate_clicks(df, period_days=1,
column_name='daily_clicks')`; the column name differs from the hard-coded
`'clicks_per_period'` of `process_single_period`. -/
def calculate_daily_clicks (df : List Sample) : Except String (List (ℤ × ℚ)) :=
  calculate_clicks 1 false df

/-!
Calendar timestamps.  The month/quarter/year aggregations of
`process_data_helper.py` and the range arithmetic of
`enum_helper.PlotGroupRange` work on calendar fields of `pd.Timestamp`
(year, month, day, time of day); they never use epoch arithmetic.  A
timestamp is modelled by those fields, with the time of day collapsed to
seconds past midnight.
-/

/-- A calendar timestamp: year, month, day and seconds past midnight. -/
structure Ts where
  year : ℤ
  month : ℤ
  day : ℤ
  sec : ℤ
deriving DecidableEq, Repr, Inhabited

/-- Chronological linearisation of a calendar timestamp.  For field-valid
timestamps (`Ts.Valid`) it orders exactly like pandas timestamp comparison:
lexicographically by `(year, month, day, sec)`. -/
def Ts.key (t : Ts) : ℤ := ((t.year * 13 + t.month) * 32 + t.day) * 86400 + t.sec

/-- Number of days of a calendar month (Gregorian rules, as implemented by
the clamping of `pd.DateOffset`). -/
def daysInMonth (y m : ℤ) : ℤ :=
  if m = 2 then (if y % 4 = 0 ∧ (y % 100 ≠ 0 ∨ y % 400 = 0) then 29 else 28)
  else if m = 4 ∨ m = 6 ∨ m = 9 ∨ m = 11 then 30 else 31

/-- Field validity of a calendar timestamp. -/
def Ts.Valid (t : Ts) : Prop :=
  1 ≤ t.month ∧ t.month ≤ 12 ∧ 1 ≤ t.day ∧ t.day ≤ daysInMonth t.year t.month ∧
    0 ≤ t.sec ∧ t.sec < 86400

instance (t : Ts) : Decidable t.Valid := by
  unfold Ts.Valid
  infer_instance

/-- `timestamp.dt.to_period('M')`: the month period of a timestamp, encoded
as a month index (order-isomorphic to pandas month periods). -/
def monthIdx (t : Ts) : ℤ := 12 * t.year + (t.month - 1)

/-- `timestamp.dt.to_period('Q')`: the quarter period, encoded as a quarter
index (order-isomorphic to pandas quarter periods). -/
def quarterIdx (t : Ts) : ℤ := 4 * t.year + Int.fdiv (t.month - 1) 3

/-- `timestamp.dt.year`: the year group key of `calculate_yearly_clicks`. -/
def yearIdx (t : Ts) : ℤ := t.year

/-- One row of the processed frame as consumed by the month/quarter/year
aggregations: `(timestamp, number)`. -/
structure MSample where
  ts : Ts
  num : ℚ
deriving DecidableEq, Repr, Inhabited

/-- `groupby(key)['number'].agg('first')` for group `k`: the value of the
first row of the frame whose key is `k` (`0` when the group is empty, a case
pandas never queries). -/
def firstVal (key : Ts → ℤ) (k : ℤ) : List MSample → ℚ
  | [] => 0
  | r :: rest => if key r.ts = k then r.num else firstVal key k rest

/-- `groupby(key)['number'].agg('last')` for group `k`: the value of the
last row of the frame whose key is `k`. -/
def lastVal (key : Ts → ℤ) (k : ℤ) : List MSample → ℚ
  | [] => 0
  | r :: rest =>
    if ∃ x ∈ rest, key x.ts = k then lastVal key k rest
    else if key r.ts = k then r.num else 0

/-- The distinct group keys in ascending order, as produced by `groupby`
(pandas sorts group keys). -/
def groupKeys (key : Ts → ℤ) (df : List MSample) : List ℤ :=
  List.insertionSort (· ≤ ·) ((df.map (fun r => key r.ts)).dedup)

/-- Common shape of `calculate_monthly_clicks`, `calculate_quarterly_clicks`
and `calculate_yearly_clicks`: group by the period key, aggregate the first
and last `number` of each group, shift the previous group's last value, and
report `last - (prev_group_last if present else first)` per group.  The
output is keyed by period index; the `index.to_timestamp()` step of the
source maps it one-to-one onto the period's first instant. -/
def aggClicks (key : Ts → ℤ) (df : List MSample) : List (ℤ × ℚ) :=
  let ks := groupKeys key df
  (List.range ks.length).map (fun i =>
    let k := ks.getD i 0
    (k, lastVal key k df -
      (if i = 0 then firstVal key k df else lastVal key (ks.getD (i - 1) 0) df)))

/-- `calculate_monthly_clicks`. -/
def calculate_monthly_clicks (df : List MSample) : List (ℤ × ℚ) :=
  aggClicks monthIdx df

/-- `calculate_quarterly_clicks`. -/
def calculate_quarterly_clicks (df : List MSample) : List (ℤ × ℚ) :=
  aggClicks quarterIdx df

/-- `calculate_yearly_clicks`. -/
def calculate_yearly_clicks (df : List MSample) : List (ℤ × ℚ) :=
  aggClicks yearIdx df

/-!
`enum_helper.PlotGroupRange`: period-boundary arithmetic of the plotting
ranges.  Each enum member carries a pandas frequency (`MS`, `QS`, `YS`) and a
span (number of months or years per range).
-/

/-- The pandas frequency of a `PlotGroupRange` member. -/
inductive GroupFreq
  | MS
  | QS
  | YS
deriving DecidableEq, Repr

/-- A `PlotGroupRange` member: its frequency and its span. -/
structure GroupRange where
  freq : GroupFreq
  span : ℕ
deriving DecidableEq, Repr

namespace PlotGroupRange

def AYLIK : GroupRange := ⟨GroupFreq.MS, 1⟩

def CEYREKLIK : GroupRange := ⟨GroupFreq.QS, 1⟩

def YILLIK : GroupRange := ⟨GroupFreq.YS, 1⟩

def UC_YILLIK : GroupRange := ⟨GroupFreq.YS, 3⟩

def BES_YILLIK : GroupRange := ⟨GroupFreq.YS, 5⟩

def ON_YILLIK : GroupRange := ⟨GroupFreq.YS, 10⟩

end PlotGroupRange

/-- `PlotGroupRange.get_range_start`: `MS` maps a timestamp to the first of
its month, `QS` to the first day of its quarter
(`month = ((month - 1) // 3) * 3 + 1`), `YS` to January 1 of its year; all
normalized to midnight. -/
def get_range_start (g : GroupRange) (t : Ts) : Ts :=
  match g.freq with
  | GroupFreq.MS => ⟨t.year, t.month, 1, 0⟩
  | GroupFreq.QS => ⟨t.year, Int.fdiv (t.month - 1) 3 * 3 + 1, 1, 0⟩
  | GroupFreq.YS => ⟨t.year, 1, 1, 0⟩

/-- `pd.DateOffset(months=n)`: calendar month addition with year carry and
the day clamped into the target month. -/
def addMonths (t : Ts) (n : ℤ) : Ts :=
  let tot := 12 * t.year + (t.month - 1) + n
  let y := Int.fdiv tot 12
  let m := tot - 12 * y + 1
  ⟨y, m, min t.day (daysInMonth y m), t.sec⟩

/-- `pd.DateOffset(years=n)`: year addition with the day clamped (Feb 29). -/
def addYears (t : Ts) (n : ℤ) : Ts :=
  ⟨t.year + n, t.month, min t.day (daysInMonth (t.year + n) t.month), t.sec⟩

/-- `PlotGroupRange.get_next_range_start`: advance by `span` months for `MS`,
`3 * span` months for `QS`, `span` years for `YS`. -/
def get_next_range_start (g : GroupRange) (t : Ts) : Ts :=
  match g.freq with
  | GroupFreq.MS => addMonths t (g.span : ℤ)
  | GroupFreq.QS => addMonths t (3 * (g.span : ℤ))
  | GroupFreq.YS => addYears t (g.span : ℤ)

/-!
Concrete inputs used by the claim theorems, witnesses and counterexamples.
Epoch values: `2024-08-26 00:00:00 UTC = 1724630400`, one day is 86400
seconds.
-/

/-- The six samples of the conservation example:
`(2024-08-26 11:40:15, 39697) … (2024-08-29 09:23:46, 39894)`. -/
def sixSamples : List Sample :=
  [⟨1724672415, 39697⟩, ⟨1724674346, 39698⟩, ⟨1724678449, 39700⟩,
   ⟨1724748889, 39746⟩, ⟨1724782627, 39788⟩, ⟨1724923426, 39894⟩]

/-- Two samples with the same timestamp (`2024-08-26 11:40:15`) and a value
increase of 30. -/
def dupSamples : List Sample := [⟨1724672415, 100⟩, ⟨1724672415, 130⟩]

/-- Two samples twelve hours apart on 2024-08-26 whose counter decreases
from 100 to 50. -/
def decSamples : List Sample := [⟨1724630400, 100⟩, ⟨1724673600, 50⟩]

/-- `(2024-01-31 12:00:00, 1000)` and `(2024-02-01 12:00:00, 1024)`. -/
def janFebSamples : List MSample :=
  [⟨⟨2024, 1, 31, 43200⟩, 1000⟩, ⟨⟨2024, 2, 1, 43200⟩, 1024⟩]

/-- Samples in January and March 2024 with no sample in February. -/
def janMarSamples : List MSample :=
  [⟨⟨2024, 1, 15, 0⟩, 100⟩, ⟨⟨2024, 3, 15, 0⟩, 200⟩]

/-- A small strictly increasing two-sample input on 2024-08-26. -/
def twoSamples : List Sample := [⟨1724630400, 5⟩, ⟨1724673600, 6⟩]

/-- The contiguous ascending list of day starts `a, a + 86400, …, b`
(for `a ≤ b`, both multiples of 86400). -/
def dayRange (a b : ℤ) : List ℤ :=
  (List.range (((b - a) / 86400).toNat + 1)).map (fun k : ℕ => a + 86400 * (k : ℤ))

/-!  General-purpose list lemmas. -/

theorem list_sum_nonneg : ∀ {l : List ℚ}, (∀ x ∈ l, 0 ≤ x) → 0 ≤ l.sum
  | [], _ => le_refl 0
  | x :: tl, h => by
    rw [List.sum_cons]
    have hx := h x (List.mem_cons_self x tl)
    have htl := list_sum_nonneg (fun y hy => h y (List.mem_cons_of_mem x hy))
    linarith

theorem sum_map_add_pointwise (ks : List ℤ) (f g : ℤ → ℚ) :
    (ks.map (fun x => f x + g x)).sum = (ks.map f).sum + (ks.map g).sum := by
  induction ks with
  | nil => simp
  | cons k tl ih => simp [ih]; ring

theorem sum_map_ite_zero (ks : List ℤ) (a : ℤ) (v : ℚ) (hnot : a ∉ ks) :
    (ks.map (fun x => if a = x then v else 0)).sum = 0 := by
  induction ks with
  | nil => simp
  | cons k tl ih =>
    have hak : a ≠ k := fun h => hnot (h ▸ List.mem_cons_self k tl)
    have htl : a ∉ tl := fun h => hnot (List.mem_cons_of_mem k h)
    simp [hak, ih htl]

theorem sum_map_ite_eq (ks : List ℤ) (a : ℤ) (v : ℚ) (hnd : ks.Nodup)
    (ha : a ∈ ks) : (ks.map (fun x => if a = x then v else 0)).sum = v := by
  induction ks with
  | nil => simp at ha
  | cons k tl ih =>
    rcases List.mem_cons.mp ha with h | h
    · subst h
      have : a ∉ tl := (List.nodup_cons.mp hnd).1
      simp [sum_map_ite_zero tl a v this]
    · have hak : a ≠ k := by
        intro hc
        exact (List.nodup_cons.mp hnd).1 (hc ▸ h)
      simp [hak, ih (List.nodup_cons.mp hnd).2 h]

theorem sum_map_range_telescope (f : ℕ → ℚ) :
    ∀ n, ((List.range n).map (fun k => f (k + 1) - f k)).sum = f n - f 0
  | 0 => by simp
  | n + 1 => by
    rw [List.range_succ, List.map_append, List.sum_append,
      sum_map_range_telescope f n]
    simp

theorem sum_map_snd_flatMap {α : Type} (l : List α) (f : α → List (ℤ × ℚ)) :
    ((l.flatMap f).map Prod.snd).sum
      = (l.map (fun a => (((f a).map Prod.snd)).sum)).sum := by
  induction l with
  | nil => simp
  | cons a tl ih => simp [List.flatMap_cons, ih]

theorem map_range_getD (l : List ℤ) :
    (List.range l.length).map (fun i => l.getD i 0) = l := by
  apply List.ext_getElem
  · simp
  · intro i h1 h2
    simp [List.getD_eq_getElem?_getD, List.getElem?_eq_getElem h2]

theorem strictSorted_eq_of_mem_iff :
    ∀ {l₁ l₂ : List ℤ}, l₁.Sorted (· < ·) → l₂.Sorted (· < ·) →
      (∀ x, x ∈ l₁ ↔ x ∈ l₂) → l₁ = l₂
  | [], [], _, _, _ => rfl
  | [], b :: l₂, _, _, hm => by
    have := (hm b).mpr (List.mem_cons_self b l₂)
    simp at this
  | a :: l₁, [], _, _, hm => by
    have := (hm a).mp (List.mem_cons_self a l₁)
    simp at this
  | a :: l₁, b :: l₂, h₁, h₂, hm => by
    have hab : a = b := by
      have hminab : ∀ x ∈ a :: l₁, a ≤ x := by
        intro x hx
        rcases List.mem_cons.mp hx with h | h
        · exact h ▸ le_refl a
        · exact le_of_lt (List.rel_of_sorted_cons h₁ x h)
      have hminb : ∀ x ∈ b :: l₂, b ≤ x := by
        intro x hx
        rcases List.mem_cons.mp hx with h | h
        · exact h ▸ le_refl b
        · exact le_of_lt (List.rel_of_sorted_cons h₂ x h)
      have h1 : b ≤ a := hminb a ((hm a).mp (List.mem_cons_self a l₁))
      have h2 : a ≤ b := hminab b ((hm b).mpr (List.mem_cons_self b l₂))
      exact le_antisymm h2 h1
    subst hab
    have htl : l₁ = l₂ := by
      apply strictSorted_eq_of_mem_iff (List.sorted_cons.mp h₁).2
        (List.sorted_cons.mp h₂).2
      intro x
      constructor
      · intro hx
        rcases List.mem_cons.mp ((hm x).mp (List.mem_cons_of_mem a hx)) with h | h
        · exact absurd (h ▸ (List.sorted_cons.mp h₁).1 x hx) (lt_irrefl x)
        · exact h
      · intro hx
        rcases List.mem_cons.mp ((hm x).mpr (List.mem_cons_of_mem a hx)) with h | h
        · exact absurd (h ▸ (List.sorted_cons.mp h₂).1 x hx) (lt_irrefl x)
        · exact h
    rw [htl]

/-!  Facts about the day floor. -/

theorem floorD_eq_ediv (t : ℤ) : floorD t = 86400 * (t / 86400) := by
  unfold floorD
  rw [Int.fdiv_eq_ediv _ (by norm_num)]

theorem floorD_le (t : ℤ) : floorD t ≤ t := by
  rw [floorD_eq_ediv]
  omega

theorem lt_floorD_add (t : ℤ) : t < floorD t + 86400 := by
  rw [floorD_eq_ediv]
  omega

theorem floorD_mono {a b : ℤ} (h : a ≤ b) : floorD a ≤ floorD b := by
  rw [floorD_eq_ediv, floorD_eq_ediv]
  omega

theorem floorD_mul (t : ℤ) : ∃ q : ℤ, floorD t = 86400 * q :=
  ⟨t / 86400, floorD_eq_ediv t⟩

/-!
The group-and-sum step of `calculate_clicks`: summing the per-key totals over
the distinct keys recovers the total of all allocated counts.
-/

theorem keyTotal_cons (p : ℤ × ℚ) (l : List (ℤ × ℚ)) (x : ℤ) :
    keyTotal (p :: l) x = (if p.1 = x then p.2 else 0) + keyTotal l x := by
  simp [keyTotal]

theorem sum_keyTotal_of_cover :
    ∀ (l : List (ℤ × ℚ)) (ks : List ℤ), ks.Nodup → (∀ p ∈ l, p.1 ∈ ks) →
      (ks.map (keyTotal l)).sum = (l.map Prod.snd).sum
  | [], ks, _, _ => by
    have : ∀ x ∈ ks, keyTotal ([] : List (ℤ × ℚ)) x = 0 := by
      intro x _
      simp [keyTotal]
    rw [List.map_congr_left this]
    simp
  | p :: tl, ks, hnd, hcov => by
    have hrw : ks.map (keyTotal (p :: tl))
        = ks.map (fun x => (if p.1 = x then p.2 else 0) + keyTotal tl x) := by
      apply List.map_congr_left
      intro x _
      exact keyTotal_cons p tl x
    rw [hrw, sum_map_add_pointwise,
      sum_map_ite_eq ks p.1 p.2 hnd (hcov p (List.mem_cons_self p tl)),
      sum_keyTotal_of_cover tl ks hnd
        (fun q hq => hcov q (List.mem_cons_of_mem p hq))]
    simp

theorem mem_sortedKeys {l : List (ℤ × ℚ)} {x : ℤ} :
    x ∈ sortedKeys l ↔ x ∈ l.map Prod.fst := by
  unfold sortedKeys
  rw [List.mem_insertionSort, List.mem_dedup]

theorem sortedKeys_nodup (l : List (ℤ × ℚ)) : (sortedKeys l).Nodup := by
  unfold sortedKeys
  exact (List.perm_insertionSort (· ≤ ·) (l.map Prod.fst).dedup).nodup_iff.mpr
    (List.nodup_dedup (l.map Prod.fst))

theorem sortedKeys_sorted (l : List (ℤ × ℚ)) : (sortedKeys l).Sorted (· < ·) :=
  (List.sorted_insertionSort (· ≤ ·) (l.map Prod.fst).dedup).lt_of_le
    (sortedKeys_nodup l)

theorem sum_sortedKeys_keyTotal (l : List (ℤ × ℚ)) :
    ((sortedKeys l).map (keyTotal l)).sum = (l.map Prod.snd).sum := by
  apply sum_keyTotal_of_cover l (sortedKeys l) (sortedKeys_nodup l)
  intro p hp
  exact mem_sortedKeys.mpr (List.mem_map_of_mem Prod.fst hp)

/-!
Per-row behaviour of the daily pipeline: for a time-ordered row the date
range always has at least two points, and the allocated counts telescope
across the day grid.
-/

theorem gridLen_one_of_le {prev ts : ℤ} (h : prev ≤ ts) :
    gridLen 1 prev ts = ((floorD ts - floorD prev) / 86400).toNat + 2 := by
  have hm := floorD_mono h
  have e1 := floorD_eq_ediv prev
  have e2 := floorD_eq_ediv ts
  unfold gridLen
  simp only [Nat.cast_one, mul_one]
  rw [Int.fdiv_eq_ediv _ (by norm_num), if_neg (by omega)]
  omega

theorem rowEntries_of_le (sc : Bool) (r : PRow) (h : r.prev ≤ r.ts) :
    rowEntries 1 sc r
      = (List.range (((floorD r.ts - floorD r.prev) / 86400).toNat + 1)).map
          (allocAt 1 r) := by
  unfold rowEntries
  rw [gridLen_one_of_le h, if_neg (by omega)]
  norm_num

theorem allocAt_one_eq (r : PRow) (k : ℕ) :
    allocAt 1 r k = (floorD r.prev + 86400 * (k : ℤ),
      r.count * (((min r.ts (floorD r.prev + 86400 * ((k : ℤ) + 1))
        - max r.prev (floorD r.prev + 86400 * (k : ℤ)) : ℤ) : ℚ) / r.interval)) := by
  unfold allocAt
  norm_num

theorem row_alloc_sum (sc : Bool) (r : PRow) (h : r.prev ≤ r.ts) :
    ((rowEntries 1 sc r).map Prod.snd).sum
      = r.count * (((r.ts - r.prev : ℤ) : ℚ) / r.interval) := by
  rw [rowEntries_of_le sc r h]
  have hm := floorD_mono h
  have e1 := floorD_eq_ediv r.prev
  have e2 := floorD_eq_ediv r.ts
  have hfle := floorD_le r.prev
  have hflt := lt_floorD_add r.ts
  set N : ℕ := ((floorD r.ts - floorD r.prev) / 86400).toNat with hN
  have hNc : 86400 * (N : ℤ) = floorD r.ts - floorD r.prev := by omega
  set g : ℕ → ℚ := fun j =>
    r.count * (((max r.prev (min r.ts (floorD r.prev + 86400 * (j : ℤ))) : ℤ) : ℚ)
      / r.interval) with hg
  have hpt : ∀ k ∈ List.range (N + 1),
      (allocAt 1 r k).2 = g (k + 1) - g k := by
    intro k hk
    have hkN : k ≤ N := by
      have := List.mem_range.mp hk
      omega
    have hkc : (k : ℤ) ≤ (N : ℤ) := by exact_mod_cast hkN
    have hsk : floorD r.prev + 86400 * (k : ℤ) ≤ r.ts := by
      have := floorD_le r.ts
      nlinarith
    have hsk1 : r.prev < floorD r.prev + 86400 * ((k : ℤ) + 1) := by
      have := lt_floorD_add r.prev
      nlinarith [Int.ofNat_nonneg k]
    have hmin1 : min r.ts (floorD r.prev + 86400 * ((k : ℤ) + 1))
        = max r.prev (min r.ts (floorD r.prev + 86400 * ((k : ℤ) + 1))) := by
      rw [max_eq_right]
      exact le_min h (le_of_lt hsk1)
    have hmax0 : max r.prev (floorD r.prev + 86400 * (k : ℤ))
        = max r.prev (min r.ts (floorD r.prev + 86400 * (k : ℤ))) := by
      rw [min_eq_right hsk]
    rw [allocAt_one_eq]
    show r.count * (((min r.ts (floorD r.prev + 86400 * ((k : ℤ) + 1))
        - max r.prev (floorD r.prev + 86400 * (k : ℤ)) : ℤ) : ℚ) / r.interval)
      = g (k + 1) - g k
    rw [hmin1, hmax0]
    simp only [hg]
    push_cast
    ring
  rw [List.map_map]
  have hmapeq : (List.range (N + 1)).map (Prod.snd ∘ allocAt 1 r)
      = (List.range (N + 1)).map (fun k => g (k + 1) - g k) :=
    List.map_congr_left hpt
  rw [hmapeq, sum_map_range_telescope g (N + 1)]
  have hgtop : g (N + 1) = r.count * ((r.ts : ℚ) / r.interval) := by
    simp only [hg]
    have harg : floorD r.prev + 86400 * (((N + 1 : ℕ) : ℤ)) = floorD r.ts + 86400 := by
      push_cast
      omega
    rw [harg, min_eq_left (by omega), max_eq_right h]
  have hgbot : g 0 = r.count * ((r.prev : ℚ) / r.interval) := by
    simp only [hg, Nat.cast_zero, mul_zero, add_zero]
    rw [min_eq_right (by omega), max_eq_left hfle]
  rw [hgtop, hgbot]
  push_cast
  ring

theorem row_sum_count (sc : Bool) (r : PRow) (h : r.prev < r.ts)
    (hI : r.interval = intervalOf r.prev r.ts) :
    ((rowEntries 1 sc r).map Prod.snd).sum = r.count := by
  rw [row_alloc_sum sc r (le_of_lt h), hI]
  unfold intervalOf
  rw [if_neg (by omega)]
  rw [div_self (by exact_mod_cast (by omega : r.ts - r.prev ≠ 0))]
  ring

theorem row_sum_zero (sc : Bool) (r : PRow) (h : r.prev = r.ts) :
    ((rowEntries 1 sc r).map Prod.snd).sum = 0 := by
  rw [row_alloc_sum sc r (le_of_eq h), h]
  norm_num

theorem rowAt_zero (df : List Sample) :
    rowAt df 0 = ⟨(df.getD 0 ⟨0, 0⟩).ts, (df.getD 0 ⟨0, 0⟩).ts, 1,
      intervalOf (df.getD 0 ⟨0, 0⟩).ts (df.getD 0 ⟨0, 0⟩).ts⟩ := by
  unfold rowAt
  norm_num

theorem rowAt_succ (df : List Sample) (i : ℕ) :
    rowAt df (i + 1) = ⟨(df.getD (i + 1) ⟨0, 0⟩).ts, (df.getD i ⟨0, 0⟩).ts,
      (df.getD (i + 1) ⟨0, 0⟩).num - (df.getD i ⟨0, 0⟩).num,
      intervalOf (df.getD i ⟨0, 0⟩).ts (df.getD (i + 1) ⟨0, 0⟩).ts⟩ := by
  unfold rowAt
  norm_num

theorem getD_eq_get (l : List Sample) (i : ℕ) (h : i < l.length) :
    l.getD i ⟨0, 0⟩ = l.get ⟨i, h⟩ := by
  rw [List.getD_eq_getElem?_getD, List.getElem?_eq_getElem h]
  rfl

theorem rows_sum_telescope (df : List Sample)
    (hs : ∀ i, i + 1 < df.length →
      (df.getD i ⟨0, 0⟩).ts < (df.getD (i + 1) ⟨0, 0⟩).ts) :
    ∀ m, m < df.length →
      ((List.range (m + 1)).map
        (fun i => ((rowEntries 1 false (rowAt df i)).map Prod.snd).sum)).sum
      = (df.getD m ⟨0, 0⟩).num - (df.getD 0 ⟨0, 0⟩).num
  | 0, _ => by
    rw [show List.range (0 + 1) = [0] from by decide]
    simp only [List.map_cons, List.map_nil, List.sum_cons, List.sum_nil]
    rw [row_sum_zero false (rowAt df 0) (by rw [rowAt_zero])]
    simp
  | m + 1, hlt => by
    rw [List.range_succ, List.map_append, List.sum_append,
      rows_sum_telescope df hs m (by omega)]
    simp only [List.map_cons, List.map_nil, List.sum_cons, List.sum_nil]
    rw [row_sum_count false (rowAt df (m + 1))
      (by rw [rowAt_succ]; exact hs m hlt)
      (by rw [rowAt_succ])]
    rw [rowAt_succ]
    ring

theorem daily_conservation (df : List Sample) (h2 : 2 ≤ df.length)
    (hs : List.Chain' (fun a b : Sample => a.ts < b.ts) df) :
    ((sortedKeys (allEntries 1 false df)).map (keyTotal (allEntries 1 false df))).sum
      = (df.getD (df.length - 1) ⟨0, 0⟩).num - (df.getD 0 ⟨0, 0⟩).num := by
  rw [sum_sortedKeys_keyTotal]
  unfold allEntries prepRows
  rw [sum_map_snd_flatMap, List.map_map]
  have hidx : ∀ i, i + 1 < df.length →
      (df.getD i ⟨0, 0⟩).ts < (df.getD (i + 1) ⟨0, 0⟩).ts := by
    intro i hi
    have hchain := List.chain'_iff_get.mp hs i (by omega)
    rw [getD_eq_get df i (by omega), getD_eq_get df (i + 1) hi]
    exact hchain
  have hmain := rows_sum_telescope df hidx (df.length - 1) (by omega)
  rw [show df.length - 1 + 1 = df.length from by omega] at hmain
  exact hmain

/-!  Non-negativity of the daily pipeline on monotone inputs. -/

theorem intervalOf_pos {prev ts : ℤ} (h : prev ≤ ts) : 0 < intervalOf prev ts := by
  unfold intervalOf
  split
  · unfold machineEps
    norm_num
  · have : (0 : ℤ) < ts - prev := by omega
    exact_mod_cast this

theorem rowEntries_nonneg (r : PRow) (hle : r.prev ≤ r.ts) (hc : 0 ≤ r.count)
    (hI : r.interval = intervalOf r.prev r.ts) :
    ∀ p ∈ rowEntries 1 false r, 0 ≤ p.2 := by
  intro p hp
  rw [rowEntries_of_le false r hle] at hp
  obtain ⟨k, hk, rfl⟩ := List.mem_map.mp hp
  have hm := floorD_mono hle
  have e1 := floorD_eq_ediv r.prev
  have e2 := floorD_eq_ediv r.ts
  have hfle := floorD_le r.prev
  have hkN : (k : ℤ) ≤ (floorD r.ts - floorD r.prev) / 86400 := by
    have := List.mem_range.mp hk
    have hle2 : k ≤ ((floorD r.ts - floorD r.prev) / 86400).toNat := by omega
    have := (Int.toNat_le.mp (le_refl ((floorD r.ts - floorD r.prev) / 86400).toNat))
    omega
  have hsk : floorD r.prev + 86400 * (k : ℤ) ≤ r.ts := by
    have h3 := floorD_le r.ts
    have : 86400 * (k : ℤ) ≤ floorD r.ts - floorD r.prev := by omega
    omega
  have hsk1 : r.prev ≤ floorD r.prev + 86400 * ((k : ℤ) + 1) := by
    have := lt_floorD_add r.prev
    nlinarith [Int.ofNat_nonneg k]
  have hIpos : 0 < r.interval := hI ▸ intervalOf_pos hle
  rw [allocAt_one_eq]
  show 0 ≤ r.count * (((min r.ts (floorD r.prev + 86400 * ((k : ℤ) + 1))
    - max r.prev (floorD r.prev + 86400 * (k : ℤ)) : ℤ) : ℚ) / r.interval)
  have hov : (0 : ℤ) ≤ min r.ts (floorD r.prev + 86400 * ((k : ℤ) + 1))
      - max r.prev (floorD r.prev + 86400 * (k : ℤ)) := by
    have h1 : max r.prev (floorD r.prev + 86400 * (k : ℤ)) ≤ r.ts :=
      max_le hle hsk
    have h2 : max r.prev (floorD r.prev + 86400 * (k : ℤ))
        ≤ floorD r.prev + 86400 * ((k : ℤ) + 1) :=
      max_le hsk1 (by nlinarith)
    have := le_min h1 h2
    omega
  exact mul_nonneg hc (div_nonneg (by exact_mod_cast hov) (le_of_lt hIpos))

theorem keyTotal_nonneg (l : List (ℤ × ℚ)) (h : ∀ p ∈ l, 0 ≤ p.2) (s : ℤ) :
    0 ≤ keyTotal l s := by
  unfold keyTotal
  apply list_sum_nonneg
  intro x hx
  obtain ⟨p, hp, rfl⟩ := List.mem_map.mp hx
  split
  · exact h p hp
  · exact le_refl 0

theorem round2_nonneg {x : ℚ} (h : 0 ≤ x) : 0 ≤ round2 x := by
  unfold round2
  apply div_nonneg _ (by norm_num)
  have : (0 : ℤ) ≤ round (x * 100) := by
    rw [round_eq]
    apply Int.le_floor.mpr
    push_cast
    linarith
  exact_mod_cast this

theorem daily_nonneg (df : List Sample)
    (hs : List.Chain' (fun a b : Sample => a.ts ≤ b.ts ∧ a.num ≤ b.num) df)
    (out : List (ℤ × ℚ)) (hok : calculate_daily_clicks df = Except.ok out) :
    ∀ p ∈ out, 0 ≤ p.2 := by
  unfold calculate_daily_clicks calculate_clicks at hok
  by_cases hemp : df.isEmpty
  · rw [if_pos hemp] at hok
    cases hok
  · rw [if_neg hemp] at hok
    have hout := (Except.ok.injEq _ _).mp hok.symm
    subst hout
    intro p hp
    obtain ⟨s, _, rfl⟩ := List.mem_map.mp hp
    apply round2_nonneg
    apply keyTotal_nonneg
    intro q hq
    unfold allEntries prepRows at hq
    obtain ⟨r, hr, hqr⟩ := List.mem_flatMap.mp hq
    obtain ⟨i, hi, rfl⟩ := List.mem_map.mp hr
    have hilen : i < df.length := List.mem_range.mp hi
    match i with
    | 0 =>
      refine rowEntries_nonneg (rowAt df 0) ?_ ?_ ?_ q hqr
      · rw [rowAt_zero]
      · rw [rowAt_zero]
        norm_num
      · rw [rowAt_zero]
    | Nat.succ j =>
      have hadj := List.chain'_iff_get.mp hs j (by omega)
      rw [← getD_eq_get df j (by omega), ← getD_eq_get df (j + 1) (by omega)] at hadj
      refine rowEntries_nonneg (rowAt df (j + 1)) ?_ ?_ ?_ q hqr
      · rw [rowAt_succ]
        exact hadj.1
      · rw [rowAt_succ]
        have := hadj.2
        simp only
        linarith
      · rw [rowAt_succ]

/-!  Gap-free coverage of the daily output keys. -/

theorem map_fst_pair_map : ∀ (ks : List ℤ) (f : ℤ → ℚ),
    (ks.map (fun s => (s, f s))).map Prod.fst = ks
  | [], _ => rfl
  | k :: tl, f => by rw [List.map_cons, List.map_cons, map_fst_pair_map tl f]

theorem rowEntries_keys (sc : Bool) (r : PRow) (h : r.prev ≤ r.ts) :
    (rowEntries 1 sc r).map Prod.fst
      = (List.range (((floorD r.ts - floorD r.prev) / 86400).toNat + 1)).map
          (fun k : ℕ => floorD r.prev + 86400 * (k : ℤ)) := by
  rw [rowEntries_of_le sc r h, List.map_map]
  apply List.map_congr_left
  intro k _
  show (allocAt 1 r k).1 = _
  rw [allocAt_one_eq]

theorem mem_rowEntries_keys {sc : Bool} {r : PRow} (h : r.prev ≤ r.ts) {x : ℤ} :
    x ∈ (rowEntries 1 sc r).map Prod.fst
      ↔ ∃ k : ℤ, 0 ≤ k ∧ k ≤ (floorD r.ts - floorD r.prev) / 86400
          ∧ x = floorD r.prev + 86400 * k := by
  rw [rowEntries_keys sc r h]
  have hm := floorD_mono h
  constructor
  · intro hx
    obtain ⟨k, hk, rfl⟩ := List.mem_map.mp hx
    have hkr := List.mem_range.mp hk
    exact ⟨(k : ℤ), Int.ofNat_nonneg k, by omega, rfl⟩
  · rintro ⟨k, hk0, hkle, rfl⟩
    apply List.mem_map.mpr
    refine ⟨k.toNat, List.mem_range.mpr (by omega), ?_⟩
    rw [Int.toNat_of_nonneg hk0]

theorem mem_allEntries_keys {d : ℕ} {sc : Bool} {df : List Sample} {x : ℤ} :
    x ∈ (allEntries d sc df).map Prod.fst
      ↔ ∃ i, i < df.length ∧ x ∈ (rowEntries d sc (rowAt df i)).map Prod.fst := by
  unfold allEntries prepRows
  rw [List.map_flatMap, List.mem_flatMap]
  constructor
  · rintro ⟨r, hr, hx⟩
    obtain ⟨i, hi, rfl⟩ := List.mem_map.mp hr
    exact ⟨i, List.mem_range.mp hi, hx⟩
  · rintro ⟨i, hi, hx⟩
    exact ⟨rowAt df i, List.mem_map.mpr ⟨i, List.mem_range.mpr hi, rfl⟩, hx⟩

theorem mem_dayRange {a b x : ℤ} (hab : a ≤ b) :
    x ∈ dayRange a b
      ↔ ∃ k : ℤ, 0 ≤ k ∧ k ≤ (b - a) / 86400 ∧ x = a + 86400 * k := by
  unfold dayRange
  constructor
  · intro hx
    obtain ⟨k, hk, rfl⟩ := List.mem_map.mp hx
    have hkr := List.mem_range.mp hk
    exact ⟨(k : ℤ), Int.ofNat_nonneg k, by omega, rfl⟩
  · rintro ⟨k, hk0, hkle, rfl⟩
    apply List.mem_map.mpr
    refine ⟨k.toNat, List.mem_range.mpr (by omega), ?_⟩
    rw [Int.toNat_of_nonneg hk0]

theorem dayRange_sorted (a b : ℤ) : (dayRange a b).Sorted (· < ·) := by
  unfold dayRange
  refine List.Pairwise.map _ ?_ (List.pairwise_lt_range _)
  intro i j (hij : i < j)
  have : (i : ℤ) < (j : ℤ) := by exact_mod_cast hij
  omega

theorem chain'_le_ts (df : List Sample)
    (hs : List.Chain' (fun a b : Sample => a.ts ≤ b.ts) df) :
    ∀ i j, i ≤ j → j < df.length →
      (df.getD i ⟨0, 0⟩).ts ≤ (df.getD j ⟨0, 0⟩).ts := by
  intro i j hij hj
  induction j, hij using Nat.le_induction with
  | base => exact le_refl _
  | succ n hn ih =>
    have hadj := List.chain'_iff_get.mp hs n (by omega)
    rw [← getD_eq_get df n (by omega), ← getD_eq_get df (n + 1) (by omega)] at hadj
    exact le_trans (ih (by omega)) hadj

theorem exists_bracket (g : ℕ → ℤ) (x : ℤ) :
    ∀ n, 1 ≤ n → g 0 ≤ x → x ≤ g n → ∃ i, i + 1 ≤ n ∧ g i ≤ x ∧ x ≤ g (i + 1)
  | 0, h1, _, _ => absurd h1 (by omega)
  | 1, _, h0, h1 => ⟨0, le_refl 1, h0, h1⟩
  | n + 2, _, h0, hn => by
    by_cases hx : x ≤ g (n + 1)
    · obtain ⟨i, hi, h⟩ := exists_bracket g x (n + 1) (by omega) h0 hx
      exact ⟨i, by omega, h⟩
    · exact ⟨n + 1, le_refl _, by omega, hn⟩

theorem daily_coverage (df : List Sample) (h2 : 2 ≤ df.length)
    (hs : List.Chain' (fun a b : Sample => a.ts ≤ b.ts) df)
    (out : List (ℤ × ℚ)) (hok : calculate_daily_clicks df = Except.ok out) :
    out.map Prod.fst = dayRange (floorD (df.getD 0 ⟨0, 0⟩).ts)
      (floorD (df.getD (df.length - 1) ⟨0, 0⟩).ts) := by
  have hmono := chain'_le_ts df hs
  set a := floorD (df.getD 0 ⟨0, 0⟩).ts with ha
  set b := floorD (df.getD (df.length - 1) ⟨0, 0⟩).ts with hb
  have hab : a ≤ b := floorD_mono (hmono 0 (df.length - 1) (by omega) (by omega))
  unfold calculate_daily_clicks calculate_clicks at hok
  rw [if_neg (by
    intro hc
    rw [List.isEmpty_iff] at hc
    subst hc
    simp at h2)] at hok
  have hout := (Except.ok.injEq _ _).mp hok.symm
  subst hout
  rw [map_fst_pair_map]
  apply strictSorted_eq_of_mem_iff (sortedKeys_sorted _) (dayRange_sorted a b)
  intro x
  rw [mem_sortedKeys, mem_allEntries_keys, mem_dayRange hab]
  constructor
  · rintro ⟨i, hi, hx⟩
    match i with
    | 0 =>
      rw [mem_rowEntries_keys (by rw [rowAt_zero])] at hx
      obtain ⟨k, hk0, hkle, rfl⟩ := hx
      rw [rowAt_zero] at hkle ⊢
      simp only at hkle ⊢
      have hk : k = 0 := by omega
      subst hk
      exact ⟨0, le_refl 0, by omega, by omega⟩
    | Nat.succ j =>
      have hadj : (df.getD j ⟨0, 0⟩).ts ≤ (df.getD (j + 1) ⟨0, 0⟩).ts :=
        hmono j (j + 1) (by omega) hi
      rw [mem_rowEntries_keys (by rw [rowAt_succ]; exact hadj)] at hx
      obtain ⟨k, hk0, hkle, rfl⟩ := hx
      rw [rowAt_succ] at hkle ⊢
      simp only at hkle ⊢
      have hlo : a ≤ floorD (df.getD j ⟨0, 0⟩).ts :=
        floorD_mono (hmono 0 j (by omega) (by omega))
      have hhi : floorD (df.getD (j + 1) ⟨0, 0⟩).ts ≤ b :=
        floorD_mono (hmono (j + 1) (df.length - 1) (by omega) (by omega))
      have e0 := floorD_eq_ediv (df.getD 0 ⟨0, 0⟩).ts
      have ej := floorD_eq_ediv (df.getD j ⟨0, 0⟩).ts
      have ej1 := floorD_eq_ediv (df.getD (j + 1) ⟨0, 0⟩).ts
      have elast := floorD_eq_ediv (df.getD (df.length - 1) ⟨0, 0⟩).ts
      refine ⟨(floorD (df.getD j ⟨0, 0⟩).ts + 86400 * k - a) / 86400, by omega,
        by omega, by omega⟩
  · rintro ⟨k, hk0, hkle, rfl⟩
    set g : ℕ → ℤ := fun i => floorD (df.getD i ⟨0, 0⟩).ts with hg
    have e0 := floorD_eq_ediv (df.getD 0 ⟨0, 0⟩).ts
    have elast := floorD_eq_ediv (df.getD (df.length - 1) ⟨0, 0⟩).ts
    have hbr : ∃ i, i + 1 ≤ df.length - 1 ∧ g i ≤ a + 86400 * k
        ∧ a + 86400 * k ≤ g (i + 1) := by
      apply exists_bracket g (a + 86400 * k) (df.length - 1) (by omega)
      · simp only [hg]
        omega
      · simp only [hg]
        omega
    obtain ⟨i, hile, hlo, hhi⟩ := hbr
    simp only [hg] at hlo hhi
    have hadj : (df.getD i ⟨0, 0⟩).ts ≤ (df.getD (i + 1) ⟨0, 0⟩).ts :=
      hmono i (i + 1) (by omega) (by omega)
    refine ⟨i + 1, by omega, ?_⟩
    rw [mem_rowEntries_keys (by rw [rowAt_succ]; exact hadj)]
    rw [rowAt_succ]
    simp only
    have ei := floorD_eq_ediv (df.getD i ⟨0, 0⟩).ts
    have ei1 := floorD_eq_ediv (df.getD (i + 1) ⟨0, 0⟩).ts
    refine ⟨(a + 86400 * k - floorD (df.getD i ⟨0, 0⟩).ts) / 86400, by omega,
      by omega, by omega⟩

/-!  The month/quarter/year aggregations. -/

theorem chain'_to_pairwise {α : Type} {R : α → α → Prop}
    (htr : ∀ a b c, R a b → R b c → R a c) :
    ∀ {l : List α}, List.Chain' R l → List.Pairwise R l := by
  intro l
  induction l with
  | nil => exact fun _ => List.Pairwise.nil
  | cons a tl ih =>
    intro h
    rcases tl with _ | ⟨b, tl'⟩
    · exact List.pairwise_singleton R a
    · have hc := List.chain'_cons.mp h
      have hp := ih hc.2
      refine List.pairwise_cons.mpr ⟨?_, hp⟩
      intro x hx
      rcases List.mem_cons.mp hx with rfl | hx'
      · exact hc.1
      · exact htr a b x hc.1 ((List.pairwise_cons.mp hp).1 x hx')

theorem getD_int_eq_getElem (l : List ℤ) (i : ℕ) (h : i < l.length) :
    l.getD i 0 = l[i] := by
  rw [List.getD_eq_getElem?_getD, List.getElem?_eq_getElem h]
  rfl

theorem getD_int_eq_get (l : List ℤ) (i : ℕ) (h : i < l.length) :
    l.getD i 0 = l.get ⟨i, h⟩ := by
  rw [List.getD_eq_getElem?_getD, List.getElem?_eq_getElem h]
  rfl

theorem mem_groupKeys {key : Ts → ℤ} {df : List MSample} {k : ℤ} :
    k ∈ groupKeys key df ↔ ∃ r ∈ df, key r.ts = k := by
  unfold groupKeys
  rw [List.mem_insertionSort, List.mem_dedup, List.mem_map]

theorem groupKeys_nodup (key : Ts → ℤ) (df : List MSample) :
    (groupKeys key df).Nodup := by
  unfold groupKeys
  exact (List.perm_insertionSort (· ≤ ·) _).nodup_iff.mpr
    (List.nodup_dedup _)

theorem groupKeys_sorted (key : Ts → ℤ) (df : List MSample) :
    (groupKeys key df).Sorted (· < ·) :=
  (List.sorted_insertionSort (· ≤ ·) _).lt_of_le (groupKeys_nodup key df)

theorem aggClicks_keys (key : Ts → ℤ) (df : List MSample) :
    (aggClicks key df).map Prod.fst = groupKeys key df := by
  apply List.ext_getElem
  · simp [aggClicks]
  · intro i h1 h2
    simp [aggClicks, List.getD_eq_getElem?_getD, List.getElem?_eq_getElem h2]

theorem firstVal_mem {key : Ts → ℤ} {k : ℤ} :
    ∀ {df : List MSample}, (∃ r ∈ df, key r.ts = k) →
      ∃ r ∈ df, key r.ts = k ∧ firstVal key k df = r.num
  | [], h => absurd h (by simp)
  | r :: rest, h => by
    by_cases hr : key r.ts = k
    · exact ⟨r, List.mem_cons_self r rest, hr, by simp only [firstVal, if_pos hr]⟩
    · have hrest : ∃ x ∈ rest, key x.ts = k := by
        obtain ⟨x, hx, hxk⟩ := h
        rcases List.mem_cons.mp hx with rfl | hx'
        · exact absurd hxk hr
        · exact ⟨x, hx', hxk⟩
      obtain ⟨x, hx, hxk, hval⟩ := firstVal_mem hrest
      exact ⟨x, List.mem_cons_of_mem r hx, hxk, by
        simp only [firstVal, if_neg hr]
        exact hval⟩

theorem lastVal_mem {key : Ts → ℤ} {k : ℤ} :
    ∀ {df : List MSample}, (∃ r ∈ df, key r.ts = k) →
      ∃ r ∈ df, key r.ts = k ∧ lastVal key k df = r.num
  | [], h => absurd h (by simp)
  | r :: rest, h => by
    by_cases hrest : ∃ x ∈ rest, key x.ts = k
    · obtain ⟨x, hx, hxk, hval⟩ := lastVal_mem hrest
      exact ⟨x, List.mem_cons_of_mem r hx, hxk, by
        simp only [lastVal, if_pos hrest]
        exact hval⟩
    · have hr : key r.ts = k := by
        obtain ⟨x, hx, hxk⟩ := h
        rcases List.mem_cons.mp hx with rfl | hx'
        · exact hxk
        · exact absurd ⟨x, hx', hxk⟩ hrest
      exact ⟨r, List.mem_cons_self r rest, hr, by
        simp only [lastVal, if_neg hrest, if_pos hr]⟩

theorem lastVal_le_lastVal {key : Ts → ℤ} {k k' : ℤ} (hkk : k < k') :
    ∀ {df : List MSample},
      List.Pairwise (fun a b => key a.ts ≤ key b.ts) df →
      List.Pairwise (fun a b : MSample => a.num ≤ b.num) df →
      (∃ r ∈ df, key r.ts = k) → (∃ r ∈ df, key r.ts = k') →
      lastVal key k df ≤ lastVal key k' df
  | [], _, _, hk, _ => absurd hk (by simp)
  | r :: rest, hkey, hnum, hk, hk' => by
    by_cases hrest' : ∃ x ∈ rest, key x.ts = k'
    · by_cases hrest : ∃ x ∈ rest, key x.ts = k
      · simp only [lastVal, if_pos hrest, if_pos hrest']
        exact lastVal_le_lastVal hkk (List.pairwise_cons.mp hkey).2
          (List.pairwise_cons.mp hnum).2 hrest hrest'
      · have hr : key r.ts = k := by
          obtain ⟨x, hx, hxk⟩ := hk
          rcases List.mem_cons.mp hx with rfl | hx'
          · exact hxk
          · exact absurd ⟨x, hx', hxk⟩ hrest
        simp only [lastVal, if_neg hrest, if_pos hr, if_pos hrest']
        obtain ⟨x, hx, hxk, hval⟩ := lastVal_mem hrest'
        rw [hval]
        exact (List.pairwise_cons.mp hnum).1 x hx
    · exfalso
      have hr' : key r.ts = k' := by
        obtain ⟨x, hx, hxk⟩ := hk'
        rcases List.mem_cons.mp hx with rfl | hx'
        · exact hxk
        · exact absurd ⟨x, hx', hxk⟩ hrest'
      obtain ⟨x, hx, hxk⟩ := hk
      rcases List.mem_cons.mp hx with rfl | hx'
      · omega
      · have := (List.pairwise_cons.mp hkey).1 x hx'
        omega

theorem firstVal_le_lastVal {key : Ts → ℤ} {k : ℤ} :
    ∀ {df : List MSample},
      List.Pairwise (fun a b : MSample => a.num ≤ b.num) df →
      (∃ r ∈ df, key r.ts = k) →
      firstVal key k df ≤ lastVal key k df
  | [], _, hk => absurd hk (by simp)
  | r :: rest, hnum, hk => by
    by_cases hr : key r.ts = k
    · by_cases hrest : ∃ x ∈ rest, key x.ts = k
      · simp only [firstVal, lastVal, if_pos hr, if_pos hrest]
        obtain ⟨x, hx, hxk, hval⟩ := lastVal_mem hrest
        rw [hval]
        exact (List.pairwise_cons.mp hnum).1 x hx
      · simp only [firstVal, lastVal, if_pos hr, if_neg hrest]
        exact le_refl _
    · have hrest : ∃ x ∈ rest, key x.ts = k := by
        obtain ⟨x, hx, hxk⟩ := hk
        rcases List.mem_cons.mp hx with rfl | hx'
        · exact absurd hxk hr
        · exact ⟨x, hx', hxk⟩
      simp only [firstVal, lastVal, if_neg hr, if_pos hrest]
      exact firstVal_le_lastVal (List.pairwise_cons.mp hnum).2 hrest

theorem aggClicks_nonneg (key : Ts → ℤ) (df : List MSample)
    (hkey : List.Pairwise (fun a b => key a.ts ≤ key b.ts) df)
    (hnum : List.Pairwise (fun a b : MSample => a.num ≤ b.num) df) :
    ∀ p ∈ aggClicks key df, 0 ≤ p.2 := by
  intro p hp
  unfold aggClicks at hp
  obtain ⟨i, hi, rfl⟩ := List.mem_map.mp hp
  have hir := List.mem_range.mp hi
  simp only
  have hkimem : (groupKeys key df).getD i 0 ∈ groupKeys key df := by
    rw [getD_int_eq_getElem _ i hir]
    exact List.getElem_mem hir
  have hocc : ∃ r ∈ df, key r.ts = (groupKeys key df).getD i 0 :=
    mem_groupKeys.mp hkimem
  by_cases h0 : i = 0
  · subst h0
    rw [if_pos rfl]
    have := firstVal_le_lastVal hnum hocc
    linarith
  · rw [if_neg h0]
    have hprev : (groupKeys key df).getD (i - 1) 0 < (groupKeys key df).getD i 0 := by
      calc (groupKeys key df).getD (i - 1) 0
          = (groupKeys key df).get ⟨i - 1, by omega⟩ :=
            getD_int_eq_get _ (i - 1) (by omega)
        _ < (groupKeys key df).get ⟨i, hir⟩ := by
            have hpg := List.pairwise_iff_get.mp (groupKeys_sorted key df)
            exact hpg ⟨i - 1, by omega⟩ ⟨i, hir⟩ (by
              rw [Fin.mk_lt_mk]
              omega)
        _ = (groupKeys key df).getD i 0 := (getD_int_eq_get _ i hir).symm
    have hoccp : ∃ r ∈ df, key r.ts = (groupKeys key df).getD (i - 1) 0 := by
      apply mem_groupKeys.mp
      rw [getD_int_eq_getElem _ (i - 1) (by omega)]
      exact List.getElem_mem (by omega)
    have := lastVal_le_lastVal hprev hkey hnum hoccp hocc
    linarith

/-!  Monotonicity of the period keys and period-boundary arithmetic. -/

theorem daysInMonth_bounds (y m : ℤ) :
    28 ≤ daysInMonth y m ∧ daysInMonth y m ≤ 31 := by
  unfold daysInMonth
  split_ifs <;> norm_num

theorem monthIdx_mono {a b : Ts} (ha : a.Valid) (hb : b.Valid)
    (h : a.key ≤ b.key) : monthIdx a ≤ monthIdx b := by
  obtain ⟨ha1, ha2, ha3, ha4, ha5, ha6⟩ := ha
  obtain ⟨hb1, hb2, hb3, hb4, hb5, hb6⟩ := hb
  have hda := (daysInMonth_bounds a.year a.month).2
  have hdb := (daysInMonth_bounds b.year b.month).2
  unfold Ts.key at h
  unfold monthIdx
  omega

theorem quarterIdx_mono {a b : Ts} (ha : a.Valid) (hb : b.Valid)
    (h : a.key ≤ b.key) : quarterIdx a ≤ quarterIdx b := by
  have hm := monthIdx_mono ha hb h
  obtain ⟨ha1, ha2, _, _, _, _⟩ := ha
  obtain ⟨hb1, hb2, _, _, _, _⟩ := hb
  unfold monthIdx at hm
  unfold quarterIdx
  rw [Int.fdiv_eq_ediv _ (by norm_num), Int.fdiv_eq_ediv _ (by norm_num)]
  omega

theorem yearIdx_mono {a b : Ts} (ha : a.Valid) (hb : b.Valid)
    (h : a.key ≤ b.key) : yearIdx a ≤ yearIdx b := by
  have hm := monthIdx_mono ha hb h
  obtain ⟨ha1, ha2, _, _, _, _⟩ := ha
  obtain ⟨hb1, hb2, _, _, _, _⟩ := hb
  unfold monthIdx at hm
  unfold yearIdx
  omega

theorem fdiv_three (a : ℤ) : a.fdiv 3 = a / 3 := Int.fdiv_eq_ediv a (by norm_num)

theorem fdiv_twelve (a : ℤ) : a.fdiv 12 = a / 12 := Int.fdiv_eq_ediv a (by norm_num)

theorem min_one_daysInMonth (y m : ℤ) : min 1 (daysInMonth y m) = 1 :=
  min_eq_left (le_trans (by norm_num) (daysInMonth_bounds y m).1)

theorem get_range_start_idem (g : GroupRange) (t : Ts) :
    get_range_start g (get_range_start g t) = get_range_start g t := by
  rcases g with ⟨f, s⟩
  cases f
  case MS => rfl
  case QS =>
    have harith : Int.fdiv (Int.fdiv (t.month - 1) 3 * 3 + 1 - 1) 3 * 3 + 1
        = Int.fdiv (t.month - 1) 3 * 3 + 1 := by
      simp only [fdiv_three]
      omega
    show Ts.mk t.year (Int.fdiv (Int.fdiv (t.month - 1) 3 * 3 + 1 - 1) 3 * 3 + 1) 1 0
        = Ts.mk t.year (Int.fdiv (t.month - 1) 3 * 3 + 1) 1 0
    rw [harith]
  case YS => rfl

theorem get_next_after_start (g : GroupRange) (t : Ts) (hspan : 1 ≤ g.span)
    (hv : t.Valid) :
    (get_range_start g t).key < (get_next_range_start g (get_range_start g t)).key := by
  obtain ⟨hv1, hv2, hv3, hv4, hv5, hv6⟩ := hv
  rcases g with ⟨f, s⟩
  have hs1 : (1 : ℤ) ≤ (s : ℤ) := by exact_mod_cast hspan
  cases f
  case MS =>
    simp only [get_range_start, get_next_range_start, addMonths,
      min_one_daysInMonth, fdiv_twelve]
    unfold Ts.key
    simp only
    omega
  case QS =>
    simp only [get_range_start, get_next_range_start, addMonths,
      min_one_daysInMonth, fdiv_twelve, fdiv_three]
    unfold Ts.key
    simp only
    omega
  case YS =>
    simp only [get_range_start, get_next_range_start, addYears,
      min_one_daysInMonth]
    unfold Ts.key
    simp only
    omega

theorem range_tiling (g : GroupRange) (t u : Ts) (hspan : g.span = 1)
    (ht : t.Valid) (hu : u.Valid)
    (hl : (get_range_start g t).key ≤ u.key)
    (hr : u.key < (get_next_range_start g (get_range_start g t)).key) :
    get_range_start g u = get_range_start g t := by
  rcases g with ⟨f, s⟩
  subst hspan
  rcases t with ⟨ty, tmo, td, tse⟩
  rcases u with ⟨uy, umo, ud, usec⟩
  obtain ⟨ht1, ht2, ht3, ht4, ht5, ht6⟩ := ht
  obtain ⟨hu1, hu2, hu3, hu4, hu5, hu6⟩ := hu
  dsimp only at ht1 ht2 ht3 ht4 ht5 ht6 hu1 hu2 hu3 hu4 hu5 hu6
  have hda := daysInMonth_bounds uy umo
  have hdb := daysInMonth_bounds ty tmo
  cases f
  case MS =>
    simp only [get_range_start, get_next_range_start, addMonths,
      min_one_daysInMonth, fdiv_twelve, Nat.cast_one] at hl hr ⊢
    unfold Ts.key at hl hr
    dsimp only at hl hr ⊢
    simp only [Ts.mk.injEq]
    refine ⟨by omega, by omega, trivial, trivial⟩
  case QS =>
    simp only [get_range_start, get_next_range_start, addMonths,
      min_one_daysInMonth, fdiv_twelve, fdiv_three, Nat.cast_one] at hl hr ⊢
    unfold Ts.key at hl hr
    dsimp only at hl hr ⊢
    simp only [Ts.mk.injEq]
    refine ⟨?_, ?_, trivial, trivial⟩
    · interval_cases tmo <;> omega
    · interval_cases tmo <;> omega
  case YS =>
    simp only [get_range_start, get_next_range_start, addYears,
      min_one_daysInMonth, Nat.cast_one] at hl hr ⊢
    unfold Ts.key at hl hr
    dsimp only at hl hr ⊢
    simp only [Ts.mk.injEq]
    refine ⟨by omega, trivial, trivial, trivial⟩

/-!  Remaining small helpers. -/

theorem intervalOf_ne_zero (prev ts : ℤ) : intervalOf prev ts ≠ 0 := by
  unfold intervalOf
  split
  · unfold machineEps
    norm_num
  · rename_i h
    exact Int.cast_ne_zero.mpr (by omega)

theorem rowEntries_zero_of_eq (sc : Bool) (r : PRow) (h : r.prev = r.ts) :
    ∀ p ∈ rowEntries 1 sc r, p.2 = 0 := by
  intro p hp
  rw [rowEntries_of_le sc r (le_of_eq h)] at hp
  obtain ⟨k, hk, rfl⟩ := List.mem_map.mp hp
  have hfl : floorD r.ts - floorD r.prev = 0 := by rw [h, sub_self]
  have hk0 : k = 0 := by
    have := List.mem_range.mp hk
    omega
  subst hk0
  rw [allocAt_one_eq]
  show r.count * (((min r.ts (floorD r.prev + 86400 * ((0 : ℤ) + 1))
    - max r.prev (floorD r.prev + 86400 * (0 : ℤ)) : ℤ) : ℚ) / r.interval) = 0
  have h1 : min r.ts (floorD r.prev + 86400 * ((0 : ℤ) + 1)) = r.ts := by
    apply min_eq_left
    have := lt_floorD_add r.ts
    rw [h]
    omega
  have h2 : max r.prev (floorD r.prev + 86400 * (0 : ℤ)) = r.prev := by
    apply max_eq_left
    have := floorD_le r.prev
    omega
  rw [h1, h2, h, sub_self]
  norm_num

/-!  Claim theorems. -/

/-- C1 counterexample: a time-sorted two-sample sequence whose samples share
one timestamp.  The zero-length interval is guarded by machine epsilon and
every overlap proportion degenerates to zero, so the returned daily series
sums to `0`, not to `value[last] - value[first] = 30`: exact mass
conservation fails on the code as claimed. -/
theorem C1_counterexample :
    calculate_daily_clicks dupSamples = Except.ok [(1724630400, 0)]
    ∧ ((0 : ℚ) ≠ 130 - 100) := by
  constructor
  · with_unfolding_all rfl
  · norm_num

/-- C1 (amended): for a sample sequence with at least two samples and
strictly increasing timestamps, the per-period totals of the daily pipeline
before the final two-decimal rounding sum exactly to
`value[last] - value[first]`; and for the six samples from
`(2024-08-26 11:40:15, 39697)` to `(2024-08-29 09:23:46, 39894)` the
returned (rounded) daily increments sum to exactly `197`. -/
theorem C1_conservation_amended :
    (∀ df : List Sample, 2 ≤ df.length →
      List.Chain' (fun a b : Sample => a.ts < b.ts) df →
      ((sortedKeys (allEntries 1 false df)).map
        (keyTotal (allEntries 1 false df))).sum
        = (df.getD (df.length - 1) ⟨0, 0⟩).num - (df.getD 0 ⟨0, 0⟩).num)
    ∧ (calculate_daily_clicks sixSamples).map (fun l => (l.map Prod.snd).sum)
        = Except.ok 197 := by
  constructor
  · exact fun df h2 hs => daily_conservation df h2 hs
  · with_unfolding_all rfl

/-- C1 witness: the amended conservation applied to a concrete strictly
increasing two-sample sequence. -/
theorem C1_witness :
    ((sortedKeys (allEntries 1 false twoSamples)).map
      (keyTotal (allEntries 1 false twoSamples))).sum
      = (twoSamples.getD (twoSamples.length - 1) ⟨0, 0⟩).num
        - (twoSamples.getD 0 ⟨0, 0⟩).num :=
  C1_conservation_amended.1 twoSamples (by norm_num [twoSamples])
    (List.chain'_pair.mpr (by norm_num [twoSamples]))

/-- C2: evaluating `calculate_monthly_clicks` at the month-boundary pair
`(2024-01-31 12:00:00, 1000)`, `(2024-02-01 12:00:00, 1024)`: the code
attributes `0` to January 2024 and the full delta `24` to February 2024
instead of the proportional `12`/`12` asserted by the claim and by the
repository's own test `test_month_boundary_correct_proportions`. -/
theorem C2_month_boundary_code_eval :
    calculate_monthly_clicks janFebSamples
      = [(monthIdx ⟨2024, 1, 31, 43200⟩, 0), (monthIdx ⟨2024, 2, 1, 43200⟩, 24)]
    ∧ ((0 : ℚ) ≠ 12 ∧ (24 : ℚ) ≠ 12) := by
  refine ⟨by with_unfolding_all rfl, by norm_num, by norm_num⟩

/-- C3: on the empty input the pipeline raises (`calculate_interval_durations`
indexes `clicks_dataframe.index[0]` on an empty frame), and on a one-sample
input it returns a singleton zero-valued series rather than an empty one —
both contradicting the claim and the repository's own tests
`test_empty_dataframe` and `test_single_record`. -/
theorem C3_insufficient_data_code_eval :
    calculate_daily_clicks [] = Except.error "IndexError: index 0 is out of bounds"
    ∧ calculate_daily_clicks [⟨1724672415, 100⟩] = Except.ok [(1724630400, 0)]
    ∧ ([((1724630400 : ℤ), (0 : ℚ))] : List (ℤ × ℚ)) ≠ [] := by
  refine ⟨rfl, by with_unfolding_all rfl, by simp⟩

/-- C4 counterexample: a sorted pair whose counter decreases from 100 to 50
inside one day.  The daily pipeline propagates the raw negative delta: the
output increment for the day is `-50 < 0`, so no clamping to zero happens. -/
theorem C4_counterexample :
    calculate_daily_clicks decSamples = Except.ok [(1724630400, -50)]
    ∧ ((-50 : ℚ) < 0) := by
  refine ⟨by with_unfolding_all rfl, by norm_num⟩

/-- C4 (amended): the pipelines never clamp; instead, every output increment
is non-negative provided the input counter values are non-decreasing (daily
pipeline under time-and-value-sorted input; month/quarter/year aggregations
under time-and-value-sorted input with field-valid timestamps). -/
theorem C4_nonneg_amended :
    (∀ (df : List Sample) (out : List (ℤ × ℚ)),
      List.Chain' (fun a b : Sample => a.ts ≤ b.ts ∧ a.num ≤ b.num) df →
      calculate_daily_clicks df = Except.ok out → ∀ p ∈ out, 0 ≤ p.2)
    ∧ (∀ df : List MSample,
      List.Chain' (fun a b : MSample => a.ts.key ≤ b.ts.key ∧ a.num ≤ b.num) df →
      (∀ r ∈ df, r.ts.Valid) →
      (∀ p ∈ calculate_monthly_clicks df, 0 ≤ p.2)
      ∧ (∀ p ∈ calculate_quarterly_clicks df, 0 ≤ p.2)
      ∧ (∀ p ∈ calculate_yearly_clicks df, 0 ≤ p.2)) := by
  constructor
  · intro df out hch hok
    exact daily_nonneg df hch out hok
  · intro df hch hv
    have hpair := chain'_to_pairwise
      (fun a b c hab hbc => ⟨le_trans hab.1 hbc.1, le_trans hab.2 hbc.2⟩) hch
    have hnum : List.Pairwise (fun a b : MSample => a.num ≤ b.num) df :=
      hpair.imp (fun h => h.2)
    refine ⟨aggClicks_nonneg monthIdx df ?_ hnum,
      aggClicks_nonneg quarterIdx df ?_ hnum,
      aggClicks_nonneg yearIdx df ?_ hnum⟩
    · exact hpair.imp_of_mem
        (fun ha hb hr => monthIdx_mono (hv _ ha) (hv _ hb) hr.1)
    · exact hpair.imp_of_mem
        (fun ha hb hr => quarterIdx_mono (hv _ ha) (hv _ hb) hr.1)
    · exact hpair.imp_of_mem
        (fun ha hb hr => yearIdx_mono (hv _ ha) (hv _ hb) hr.1)

/-- C4 witness: the amended non-negativity applied to concrete monotone
inputs of the daily and of the monthly pipeline. -/
theorem C4_witness :
    (0 : ℚ) ≤ (((1724630400 : ℤ), (1 : ℚ))).2
    ∧ (0 : ℚ) ≤ (((24288 : ℤ), (0 : ℚ))).2 := by
  constructor
  · exact C4_nonneg_amended.1 twoSamples [(1724630400, 1)]
      (List.chain'_pair.mpr (by constructor <;> norm_num [twoSamples]))
      (by with_unfolding_all rfl) (1724630400, 1) (List.mem_cons_self _ _)
  · exact (C4_nonneg_amended.2 janFebSamples
      (List.chain'_pair.mpr (by
        constructor
        · decide
        · norm_num [janFebSamples]))
      (by decide)).1 (24288, 0) (by with_unfolding_all decide)

/-- C5 counterexample: samples in January and March 2024 with no February
sample.  The monthly series contains only the two sampled months
(`24288 = monthIdx` of January 2024, `24290` of March 2024); the period
`24289` (February 2024), which lies strictly between the period of the first
and the period of the last sample, is absent — the claimed gap-free coverage
fails at month granularity. -/
theorem C5_counterexample :
    calculate_monthly_clicks janMarSamples = [(24288, 0), (24290, 100)]
    ∧ monthIdx ⟨2024, 1, 15, 0⟩ = 24288 ∧ monthIdx ⟨2024, 3, 15, 0⟩ = 24290
    ∧ (24289 : ℤ) ∉ (calculate_monthly_clicks janMarSamples).map Prod.fst
    ∧ (24288 : ℤ) < 24289 ∧ (24289 : ℤ) < 24290 := by
  refine ⟨by with_unfolding_all rfl, rfl, rfl, ?_, by norm_num, by norm_num⟩
  with_unfolding_all decide

/-- C5 (amended): the daily pipeline is gap-free — its key list equals the
contiguous day range from the day of the first sample to the day of the last
sample; the month/quarter/year aggregations instead return exactly one entry
per period that contains at least one sample, in ascending order, with
sample-free periods absent. -/
theorem C5_coverage_amended :
    (∀ (df : List Sample) (out : List (ℤ × ℚ)), 2 ≤ df.length →
      List.Chain' (fun a b : Sample => a.ts ≤ b.ts) df →
      calculate_daily_clicks df = Except.ok out →
      out.map Prod.fst = dayRange (floorD (df.getD 0 ⟨0, 0⟩).ts)
        (floorD (df.getD (df.length - 1) ⟨0, 0⟩).ts))
    ∧ (∀ (key : Ts → ℤ) (df : List MSample),
      ((aggClicks key df).map Prod.fst).Sorted (· < ·)
      ∧ ((aggClicks key df).map Prod.fst).Nodup
      ∧ ∀ k : ℤ, k ∈ (aggClicks key df).map Prod.fst ↔ ∃ r ∈ df, key r.ts = k) := by
  constructor
  · intro df out h2 hs hok
    exact daily_coverage df h2 hs out hok
  · intro key df
    rw [aggClicks_keys]
    exact ⟨groupKeys_sorted key df, groupKeys_nodup key df, fun k => mem_groupKeys⟩

/-- C5 witness: the amended daily coverage applied to a concrete two-sample
input. -/
theorem C5_witness :
    ([((1724630400 : ℤ), (1 : ℚ))] : List (ℤ × ℚ)).map Prod.fst
      = dayRange (floorD (twoSamples.getD 0 ⟨0, 0⟩).ts)
          (floorD (twoSamples.getD (twoSamples.length - 1) ⟨0, 0⟩).ts) :=
  C5_coverage_amended.1 twoSamples [(1724630400, 1)] (by norm_num [twoSamples])
    (List.chain'_pair.mpr (by norm_num [twoSamples]))
    (by with_unfolding_all rfl)

/-- C6: a zero-duration adjacent pair is harmless: the interval duration of
every prepared row is non-zero (zero durations are replaced by machine
epsilon before being used as a denominator), the row following the duplicate
timestamp carries exactly the machine-epsilon interval, and every period
allocation of that row is zero. -/
theorem C6_zero_duration_safe :
    ∀ (df : List Sample) (i : ℕ), i + 1 < df.length →
      (df.getD i ⟨0, 0⟩).ts = (df.getD (i + 1) ⟨0, 0⟩).ts →
      (∀ j : ℕ, (rowAt df j).interval ≠ 0)
      ∧ (rowAt df (i + 1)).interval = machineEps
      ∧ ∀ p ∈ rowEntries 1 false (rowAt df (i + 1)), p.2 = 0 := by
  intro df i hi heq
  refine ⟨?_, ?_, ?_⟩
  · intro j
    match j with
    | 0 =>
      rw [rowAt_zero]
      exact intervalOf_ne_zero _ _
    | Nat.succ m =>
      rw [rowAt_succ]
      exact intervalOf_ne_zero _ _
  · rw [rowAt_succ]
    show intervalOf (df.getD i ⟨0, 0⟩).ts (df.getD (i + 1) ⟨0, 0⟩).ts = machineEps
    rw [heq]
    simp [intervalOf]
  · apply rowEntries_zero_of_eq false (rowAt df (i + 1))
    rw [rowAt_succ]
    exact heq

/-- C6 witness: the zero-duration safety applied to the concrete
duplicate-timestamp input. -/
theorem C6_witness :
    (∀ j : ℕ, (rowAt dupSamples j).interval ≠ 0)
    ∧ (rowAt dupSamples 1).interval = machineEps
    ∧ ∀ p ∈ rowEntries 1 false (rowAt dupSamples 1), p.2 = 0 :=
  C6_zero_duration_safe dupSamples 0 (by norm_num [dupSamples]) (by decide)

/-- C7 counterexample: for the three-year grouping range (`UC_YILLIK`,
`YS` frequency with span 3), `2020-01-01` is a period start (it is
`get_range_start` of `2020-06-15`), `2021-03-01` lies strictly inside
`[2020-01-01, get_next_range_start = 2023-01-01)`, yet its `get_range_start`
is `2021-01-01 ≠ 2020-01-01`: consecutive periods of the multi-year
granularities do not tile the timeline in the claimed sense. -/
theorem C7_counterexample :
    get_range_start PlotGroupRange.UC_YILLIK ⟨2020, 6, 15, 0⟩ = ⟨2020, 1, 1, 0⟩
    ∧ Ts.key ⟨2020, 1, 1, 0⟩ ≤ Ts.key ⟨2021, 3, 1, 0⟩
    ∧ Ts.key ⟨2021, 3, 1, 0⟩
      < Ts.key (get_next_range_start PlotGroupRange.UC_YILLIK ⟨2020, 1, 1, 0⟩)
    ∧ get_range_start PlotGroupRange.UC_YILLIK ⟨2021, 3, 1, 0⟩ ≠ ⟨2020, 1, 1, 0⟩ := by
  refine ⟨rfl, by decide, by decide, by decide⟩

/-- C7 (amended): `get_range_start` is idempotent for every grouping range;
`get_next_range_start` of a period start strictly exceeds it for every
grouping range with positive span; and the tiling property — every valid
instant inside `[s, next s)` has period start `s` — holds exactly for the
span-one granularities (month, quarter, single year). -/
theorem C7_period_arithmetic_amended :
    (∀ (g : GroupRange) (t : Ts),
      get_range_start g (get_range_start g t) = get_range_start g t)
    ∧ (∀ (g : GroupRange) (t : Ts), 1 ≤ g.span → t.Valid →
      (get_range_start g t).key
        < (get_next_range_start g (get_range_start g t)).key)
    ∧ (∀ (g : GroupRange) (t u : Ts), g.span = 1 → t.Valid → u.Valid →
      (get_range_start g t).key ≤ u.key →
      u.key < (get_next_range_start g (get_range_start g t)).key →
      get_range_start g u = get_range_start g t) :=
  ⟨get_range_start_idem, get_next_after_start, range_tiling⟩

/-- C7 witness: the amended period arithmetic applied to concrete valid
timestamps at month granularity. -/
theorem C7_witness :
    (get_range_start PlotGroupRange.AYLIK ⟨2024, 8, 15, 3600⟩).key
      < (get_next_range_start PlotGroupRange.AYLIK
          (get_range_start PlotGroupRange.AYLIK ⟨2024, 8, 15, 3600⟩)).key
    ∧ get_range_start PlotGroupRange.AYLIK ⟨2024, 8, 20, 0⟩
      = get_range_start PlotGroupRange.AYLIK ⟨2024, 8, 15, 3600⟩ := by
  constructor
  · exact C7_period_arithmetic_amended.2.1 PlotGroupRange.AYLIK
      ⟨2024, 8, 15, 3600⟩ (by decide) (by decide)
  · exact C7_period_arithmetic_amended.2.2 PlotGroupRange.AYLIK
      ⟨2024, 8, 15, 3600⟩ ⟨2024, 8, 20, 0⟩ rfl (by decide) (by decide)
      (by decide) (by decide)

/-- C8: the embedded pipelines are pure functions of their arguments: a
second run on the same input yields an identical series for the daily
pipeline (any period length and column configuration) and for the
month/quarter/year aggregations; no state outside the arguments exists in
the embedding, mirroring that the source threads no module-level mutable
state through `calculate_clicks`. -/
theorem C8_deterministic :
    ∀ (d : ℕ) (sc : Bool) (df : List Sample) (dfm : List MSample),
      calculate_clicks d sc df = calculate_clicks d sc df
      ∧ calculate_monthly_clicks dfm = calculate_monthly_clicks dfm
      ∧ calculate_quarterly_clicks dfm = calculate_quarterly_clicks dfm
      ∧ calculate_yearly_clicks dfm = calculate_yearly_clicks dfm :=
  fun _ _ _ _ => ⟨rfl, rfl, rfl, rfl⟩

/-- C9: the first prepared row of a non-empty frame gets the synthetic count
`1` from `fillna(1)`, its previous timestamp is set to its own timestamp, its
zero interval duration is replaced by machine epsilon, and every period
allocation it produces is exactly `0`. -/
theorem C9_first_row_synthetic :
    ∀ df : List Sample, df ≠ [] →
      (rowAt df 0).count = 1
      ∧ (rowAt df 0).prev = (rowAt df 0).ts
      ∧ (rowAt df 0).interval = machineEps
      ∧ ∀ p ∈ rowEntries 1 false (rowAt df 0), p.2 = 0 := by
  intro df _
  refine ⟨by rw [rowAt_zero], by rw [rowAt_zero], ?_, ?_⟩
  · rw [rowAt_zero]
    show intervalOf (df.getD 0 ⟨0, 0⟩).ts (df.getD 0 ⟨0, 0⟩).ts = machineEps
    simp [intervalOf]
  · exact rowEntries_zero_of_eq false (rowAt df 0) (by rw [rowAt_zero])

/-- C9 witness: the synthetic first row facts on the six-sample input. -/
theorem C9_witness :
    (rowAt sixSamples 0).count = 1
    ∧ (rowAt sixSamples 0).prev = (rowAt sixSamples 0).ts
    ∧ (rowAt sixSamples 0).interval = machineEps
    ∧ ∀ p ∈ rowEntries 1 false (rowAt sixSamples 0), p.2 = 0 :=
  C9_first_row_synthetic sixSamples (by simp [sixSamples])

/-- C10: every increment of the daily output equals the per-period sum of
allocated shares rounded to two decimal places, and is therefore an integer
multiple of `1/100`. -/
theorem C10_rounded_output :
    ∀ (df : List Sample) (out : List (ℤ × ℚ)),
      calculate_daily_clicks df = Except.ok out →
      ∀ p ∈ out, p.2 = round2 (keyTotal (allEntries 1 false df) p.1)
        ∧ ∃ z : ℤ, p.2 = (z : ℚ) / 100 := by
  intro df out hok p hp
  unfold calculate_daily_clicks calculate_clicks at hok
  by_cases hemp : df.isEmpty
  · rw [if_pos hemp] at hok
    cases hok
  · rw [if_neg hemp] at hok
    have hout := (Except.ok.injEq _ _).mp hok.symm
    subst hout
    obtain ⟨s, _, rfl⟩ := List.mem_map.mp hp
    exact ⟨rfl, ⟨round (keyTotal (allEntries 1 false df) s * 100), rfl⟩⟩

/-- C10 witness: the rounding shape of the first entry of the six-sample
daily output. -/
theorem C10_witness :
    (((1724630400 : ℤ), (2804 / 100 : ℚ))).2
      = round2 (keyTotal (allEntries 1 false sixSamples)
          (((1724630400 : ℤ), (2804 / 100 : ℚ))).1)
    ∧ ∃ z : ℤ, (((1724630400 : ℤ), (2804 / 100 : ℚ))).2 = (z : ℚ) / 100 :=
  C10_rounded_output sixSamples
    [(1724630400, 2804 / 100), (1724716800, 7844 / 100),
     (1724803200, 6505 / 100), (1724889600, 2547 / 100)]
    (by with_unfolding_all rfl) (1724630400, 2804 / 100)
    (List.mem_cons_self _ _)
